import Mathlib

/-!
Verification of the mixorama audio-mixing package.

The Go source operates on `[]int16` sample buffers.  We embed:
  * a sample buffer as `List Int` (each entry meant to lie in the int16
    range `[-32768, 32767]`, stated as a hypothesis where it matters);
  * the `int32` accumulator of `LinearSummation` with an explicit
    two's-complement wrap `wrap32` applied at every addition, exactly as
    the machine does;
  * Go's conversion `int16(f)` of an in-range `float64` value, which
    discards the fraction (truncation toward zero), as `truncQ`;
  * Go's conversion `int16(f)` of an out-of-range integral value, which on
    the mainstream toolchains goes through `int64` and then truncates to
    16 bits, as the two's-complement wrap `wrap16`;
  * `float64` arithmetic of the mixing strategies as exact rational
    arithmetic (`ℚ`): for the inputs the claims quantify over — integer
    sums of squares and the weight set `[0.5, 0.5]` on int16 samples —
    the Go `float64` computations are exact, so the rational model
    agrees with the code; this is noted again at each definition
    concerned;
  * the `float64` scaling of `NormalizeSamples`, which is NOT exact
    (dividing and re-multiplying by the peak rounds twice), with an
    explicit binary64 rounding function `fl64`: round to nearest, ties
    to even, at 53 significant bits.  Every value arising there is far
    inside the normal range (magnitudes 0 or between 2^-16 and 2^31), so
    exponent overflow and subnormals cannot occur and are not modelled;
  * `math.Sqrt` followed by Go's truncating conversion as the integer
    square root `Nat.sqrt` (for a nonnegative radicand `x` that is half an
    integer, `trunc (sqrt x) = Nat.sqrt ⌊x⌋`, and the correctly rounded
    `float64` square root never crosses an integer boundary for radicands
    below 2^31, so the model agrees with the code);
  * the `errors.New` values by the enumeration `MixError`
    ("no samples provided" = `emptyInput`, "mismatched sample lengths" =
    `lengthMismatch`, "number of weights must match number of samples" =
    `weightCountMismatch`);
  * a Go panic (out-of-range index) and a `float64` NaN result as `none`
    in an `Option`-valued function.
-/

namespace Mixorama

/-- Errors produced by the three mixing strategies. -/
inductive MixError where
  | emptyInput
  | lengthMismatch
  | weightCountMismatch
  deriving DecidableEq, Repr

/-- Clamp of a wide integer into the int16 range, as written inline in
`LinearSummation`: `if sum > math.MaxInt16 { … } else if sum < math.MinInt16 { … }`. -/
def clamp16 (x : Int) : Int :=
  if x > 32767 then 32767 else if x < -32768 then -32768 else x

/-- Two's-complement wrap into the `int32` range, the behaviour of the Go
`int32` accumulator in `LinearSummation` on overflow. -/
def wrap32 (x : Int) : Int := (x + 2 ^ 31) % 2 ^ 32 - 2 ^ 31

/-- Two's-complement wrap into the `int16` range, the behaviour of Go's
narrowing conversion to `int16` of an integral value on the mainstream
toolchains (conversion through `int64` followed by 16-bit truncation). -/
def wrap16 (x : Int) : Int := (x + 2 ^ 15) % 2 ^ 16 - 2 ^ 15

/-- Truncation toward zero of a rational: the value of Go's conversion
`int16(f)` for a `float64` value `f` already inside the int16 range
("the fraction is discarded" per the Go specification). -/
def truncQ (q : ℚ) : Int := if 0 ≤ q then ⌊q⌋ else ⌈q⌉

/-- Clamp of a rational into the int16 range, as written inline in
`WeightedSummation` on the `float64` accumulator before narrowing. -/
def clampQ (q : ℚ) : ℚ :=
  if q > 32767 then 32767 else if q < -32768 then -32768 else q

/-- Outer per-index loop shared by the three mixing strategies: Go's
`for i := 0; i < numSamples; i++` filling `combined`, where a non-nil
error return aborts the whole call with no partial result.  `f` is the
body computing `combined[i]`. -/
def collectIdx (f : Nat → Except MixError Int) : List Nat → Except MixError (List Int)
  | [] => Except.ok []
  | i :: is =>
    match f i with
    | Except.error e => Except.error e
    | Except.ok v =>
      match collectIdx f is with
      | Except.error e => Except.error e
      | Except.ok vs => Except.ok (v :: vs)

/-- Inner loop of `LinearSummation` at index `i`: Go's
`for _, sample := range samples { if len(sample) != numSamples { return nil, err }; sum += int32(sample[i]) }`,
with the `int32` addition wrapping.  When no error occurs every access
`sample[i]` is in bounds, so the default of `getD` is never consulted. -/
def sumLoop (numSamples i : Nat) (acc : Int) : List (List Int) → Except MixError Int
  | [] => Except.ok acc
  | w :: ws =>
    if w.length ≠ numSamples then Except.error MixError.lengthMismatch
    else sumLoop numSamples i (wrap32 (acc + w.getD i 0)) ws

/-- The function `LinearSummation` from the source: mixes the sample
slices by per-index `int32` summation clamped into int16. -/
def LinearSummation (samples : List (List Int)) : Except MixError (List Int) :=
  if samples.length = 0 then Except.error MixError.emptyInput
  else
    collectIdx
      (fun i =>
        match sumLoop (samples.headD []).length i 0 samples with
        | Except.error e => Except.error e
        | Except.ok sum => Except.ok (clamp16 sum))
      (List.range (samples.headD []).length)

/-- Inner loop of `WeightedSummation` at index `i`, iterating the sample
slices paired with their weights: Go's
`sum += float64(sample[i]) * weights[j]` with the same per-slice length
check.  The `float64` accumulator is modelled as an exact rational; for
the dyadic weights of the claims the `float64` arithmetic is exact. -/
def wsumLoop (numSamples i : Nat) (acc : ℚ) : List (List Int × ℚ) → Except MixError ℚ
  | [] => Except.ok acc
  | p :: ps =>
    if p.1.length ≠ numSamples then Except.error MixError.lengthMismatch
    else wsumLoop numSamples i (acc + (p.1.getD i 0 : ℚ) * p.2) ps

/-- The function `WeightedSummation` from the source: the weight-count
check precedes the empty-input check, then per-index weighted `float64`
summation, clamped and narrowed (truncating) into int16. -/
def WeightedSummation (weights : List ℚ) (samples : List (List Int)) :
    Except MixError (List Int) :=
  if weights.length ≠ samples.length then Except.error MixError.weightCountMismatch
  else if samples.length = 0 then Except.error MixError.emptyInput
  else
    collectIdx
      (fun i =>
        match wsumLoop (samples.headD []).length i 0 (samples.zip weights) with
        | Except.error e => Except.error e
        | Except.ok sum => Except.ok (truncQ (clampQ sum)))
      (List.range (samples.headD []).length)

/-- Inner loop of `RMSMixing` at index `i`: Go's
`sumSquares += float64(sample[i]) * float64(sample[i])` with the same
per-slice length check.  The sum of squares of int16 values is an exact
integer in `float64` for any practical slice count, so it is modelled as
an exact integer. -/
def rmsLoop (numSamples i : Nat) (acc : Int) : List (List Int) → Except MixError Int
  | [] => Except.ok acc
  | w :: ws =>
    if w.length ≠ numSamples then Except.error MixError.lengthMismatch
    else rmsLoop numSamples i (acc + w.getD i 0 * w.getD i 0) ws

/-- The function `RMSMixing` from the source: per index,
`rms := math.Sqrt(sumSquares / float64(len(samples)))`, clamped into the
int16 range and narrowed with Go's truncating conversion.  The composite
`int16(clamp(Sqrt(S/N)))` equals `clamp16 ⌊√(S/N)⌋`, and
`⌊√(S/N)⌋ = Nat.sqrt (S / N)` with natural division, which is how it is
written here. -/
def RMSMixing (samples : List (List Int)) : Except MixError (List Int) :=
  if samples.length = 0 then Except.error MixError.emptyInput
  else
    collectIdx
      (fun i =>
        match rmsLoop (samples.headD []).length i 0 samples with
        | Except.error e => Except.error e
        | Except.ok sumSquares =>
          Except.ok (clamp16 (Int.ofNat (Nat.sqrt (sumSquares.toNat / samples.length)))))
      (List.range (samples.headD []).length)

/-- The function `FindPeakAmplitude` from the source:
`if abs := int16(math.Abs(float64(sample))); abs > maxAmplitude { maxAmplitude = abs }`.
`math.Abs` of an int16 value is exact, and the narrowing conversion back
to `int16` wraps, so the tested value is `wrap16 |sample|` (for
`sample = -32768` this is `-32768`, which is never taken as a new
maximum). -/
def FindPeakAmplitude (samples : List Int) : Int :=
  samples.foldl
    (fun maxAmplitude s =>
      if wrap16 |s| > maxAmplitude then wrap16 |s| else maxAmplitude) 0

/-- Round a rational to the nearest integer, ties to even — the rounding
applied by IEEE-754 round-to-nearest-even to the scaled significand. -/
def roundEven (x : ℚ) : Int :=
  if x - ⌊x⌋ < 1 / 2 then ⌊x⌋
  else if x - ⌊x⌋ > 1 / 2 then ⌊x⌋ + 1
  else if Even ⌊x⌋ then ⌊x⌋ else ⌊x⌋ + 1

/-- Binary64 (Go `float64`) rounding of a real (rational) value: round to
nearest, ties to even, at 53 significant bits.  All values this
development applies it to lie well inside the normal range (zero, or
magnitude between 2^-16 and 2^31), so exponent overflow and subnormal
loss of precision cannot occur and are not modelled. -/
def fl64 (q : ℚ) : ℚ :=
  if q = 0 then 0
  else
    (if q < 0 then -1 else 1) *
      (roundEven (|q| * 2 ^ ((52 : Int) - Int.log 2 |q|)) : ℚ) *
        2 ^ (Int.log 2 |q| - 52)

/-- The function `NormalizeSamples` from the source: computes
`scale := float64(targetPeak) / float64(currentPeak)` once (one binary64
rounding), then for every sample `normalized := float64(s) * scale`
(a second rounding; `float64(s)`, `float64(targetPeak)` and
`float64(currentPeak)` are exact since int16 values fit in 53 bits),
clamps the scaled value and otherwise narrows with Go's truncating
conversion. -/
def NormalizeSamples (samples : List Int) (targetPeak : Int) : List Int :=
  let currentPeak := FindPeakAmplitude samples
  if currentPeak = 0 then samples
  else
    let scale : ℚ := fl64 ((targetPeak : ℚ) / (currentPeak : ℚ))
    samples.map (fun s : Int =>
      let normalized : ℚ := fl64 ((s : ℚ) * scale)
      if normalized > 32767 then 32767
      else if normalized < -32768 then -32768
      else truncQ normalized)

/-- Mathematical peak: maximum absolute sample value, `0` for empty
input.  `FindPeakAmplitude` agrees with it whenever no sample is the
extreme value `-32768` (whose wrapped absolute value is negative and
therefore never taken as a new maximum). -/
def peakAbs (samples : List Int) : Int :=
  samples.foldl (fun m s => max m |s|) 0

/-- Scaled sample of `NormalizeSamples` after both binary64 roundings and
Go's truncating narrowing: `int16(float64(s) * scale)` with
`scale = float64(t) / float64(p)`.  (For targets in `[0, 32767]` the
saturation branches coincide with this truncation, proved below.) -/
def scaleTrunc (t p s : Int) : Int :=
  truncQ (fl64 ((s : ℚ) * fl64 ((t : ℚ) / (p : ℚ))))

/-- One comparison of `AnalyzeHighestFrequency`:
`samples[i-1] > 0 && samples[i] < 0 || samples[i-1] < 0 && samples[i] > 0`. -/
def crossingStep (prev cur : Int) : Bool :=
  (decide (0 < prev) && decide (cur < 0)) || (decide (prev < 0) && decide (0 < cur))

/-- Zero-crossing count of `AnalyzeHighestFrequency`: the loop
`for i := 1; i < len(samples); i++` applies `crossingStep` to every pair
of consecutive samples. -/
def countZeroCrossings (samples : List Int) : Nat :=
  (samples.zip samples.tail).countP (fun p => crossingStep p.1 p.2)

/-- The function `AnalyzeHighestFrequency` from the source:
`frequency = zeroCrossings / (2 * duration)` with
`duration = len(samples) / sampleRate` in `float64`.  For an empty
buffer the code computes `0.0 / 0.0`, the `float64` NaN — no numeric
result, modelled as `none`.  For a nonempty buffer and `sampleRate = 0`
the duration is `+Inf` and the quotient is `0`.  Otherwise the value is
the rational quotient (the `float64` evaluation of the same quotient,
modelled exactly). -/
def AnalyzeHighestFrequency (samples : List Int) (sampleRate : Nat) : Option ℚ :=
  let zeroCrossings := countZeroCrossings samples
  if samples.length = 0 then none
  else if sampleRate = 0 then some 0
  else some ((zeroCrossings : ℚ) / (2 * ((samples.length : ℚ) / (sampleRate : ℚ))))

/-- One step of `LowPassFilter`:
`int16(float64(filteredSamples[i-1]) + alpha*(float64(samples[i])-float64(filteredSamples[i-1])))`,
with Go's truncating conversion and (out of range) 16-bit wrap. -/
def lowPassStep (alpha : ℚ) (prev x : Int) : Int :=
  wrap16 (truncQ ((prev : ℚ) + alpha * ((x : ℚ) - (prev : ℚ))))

/-- Tail of the `LowPassFilter` loop, carrying the previous output sample. -/
def lowPassRest (alpha : ℚ) (prev : Int) : List Int → List Int
  | [] => []
  | x :: xs => lowPassStep alpha prev x :: lowPassRest alpha (lowPassStep alpha prev x) xs

/-- The function `LowPassFilter` from the source.  The coefficient
`alpha = dt / (rc + dt)` with `rc = 1 / (2π·cutoffFrequency)` is a real
number (it involves π); since none of the claims depend on its value the
filter is modelled as a function of `alpha` itself.  The body executes
`filteredSamples[0] = samples[0]` before the loop; on an empty buffer
that access panics (index out of range), modelled as `none`. -/
def LowPassFilter (samples : List Int) (alpha : ℚ) : Option (List Int) :=
  match samples with
  | [] => none
  | x :: rest => some (x :: lowPassRest alpha x rest)

/-! Helper lemmas about the numeric primitives. -/

theorem wrap32_eq_self (x : Int) (h1 : -2 ^ 31 ≤ x) (h2 : x < 2 ^ 31) : wrap32 x = x := by
  unfold wrap32
  rw [Int.emod_eq_of_lt (by omega) (by omega)]
  omega

theorem wrap16_eq_self (x : Int) (h1 : -2 ^ 15 ≤ x) (h2 : x < 2 ^ 15) : wrap16 x = x := by
  unfold wrap16
  rw [Int.emod_eq_of_lt (by omega) (by omega)]
  omega

theorem truncQ_intCast (n : Int) : truncQ (n : ℚ) = n := by
  unfold truncQ
  split
  · exact Int.floor_intCast n
  · exact Int.ceil_intCast n

theorem truncQ_abs_le (q : ℚ) (m : Int) (hq : |q| ≤ (m : ℚ)) : |truncQ q| ≤ m := by
  rcases abs_le.mp hq with ⟨hlo, hhi⟩
  unfold truncQ
  by_cases h : 0 ≤ q
  · rw [if_pos h]
    have h1 : (0 : Int) ≤ ⌊q⌋ := Int.floor_nonneg.mpr h
    have h2 : ⌊q⌋ ≤ m := by
      have := Int.floor_le_floor hhi
      simpa using this
    rw [abs_of_nonneg h1]; exact h2
  · rw [if_neg h]
    push_neg at h
    have h1 : ⌈q⌉ ≤ 0 := by
      have := Int.ceil_le_ceil h.le
      simpa using this
    have h2 : -m ≤ ⌈q⌉ := by
      have hlo2 : (((-m : Int)) : ℚ) ≤ q := by push_cast; exact hlo
      have h3 := Int.ceil_le_ceil hlo2
      rwa [Int.ceil_intCast] at h3
    rw [abs_of_nonpos h1]; omega

/-- Evaluation principle for concrete integer square roots. -/
theorem sqrt_eval (n a : Nat) (h1 : a * a ≤ n) (h2 : n < (a + 1) * (a + 1)) :
    Nat.sqrt n = a := (Nat.eq_sqrt.mpr ⟨h1, h2⟩).symm

/-! Helper lemmas about the binary64 rounding `fl64`. -/

theorem int_log_eq (r : ℚ) (e : Int) (hr : 0 < r)
    (h1 : (2 : ℚ) ^ e ≤ r) (h2 : r < (2 : ℚ) ^ (e + 1)) : Int.log 2 r = e := by
  have hb : (1 : ℕ) < 2 := by omega
  have hcast : (((2 : ℕ)) : ℚ) = (2 : ℚ) := by norm_num
  have hl1 : (2 : ℚ) ^ Int.log 2 r ≤ r := by
    have := Int.zpow_log_le_self hb hr
    rwa [hcast] at this
  have hl2 : r < (2 : ℚ) ^ (Int.log 2 r + 1) := by
    have := Int.lt_zpow_succ_log_self hb r
    rwa [hcast] at this
  have ha : (1 : ℚ) < 2 := by norm_num
  have he1 : e < Int.log 2 r + 1 :=
    (zpow_lt_zpow_iff_right₀ ha).mp (lt_of_le_of_lt h1 hl2)
  have he2 : Int.log 2 r < e + 1 :=
    (zpow_lt_zpow_iff_right₀ ha).mp (lt_of_le_of_lt hl1 h2)
  omega

theorem roundEven_err (x : ℚ) : |(roundEven x : ℚ) - x| ≤ 1 / 2 := by
  have h0 : ((⌊x⌋ : Int) : ℚ) ≤ x := Int.floor_le x
  have h1 : x < ⌊x⌋ + 1 := Int.lt_floor_add_one x
  unfold roundEven
  split_ifs with ha hb hc
  · rw [abs_le]; constructor <;> linarith
  · rw [abs_le]; push_cast; constructor <;> linarith
  · rw [abs_le]; constructor <;> linarith
  · rw [abs_le]; push_cast; constructor <;> linarith

theorem fl64_err (q : ℚ) : |fl64 q - q| ≤ |q| / 9007199254740992 := by
  by_cases hq : q = 0
  · simp [fl64, hq]
  · have habs : 0 < |q| := abs_pos.mpr hq
    have hb : (1 : ℕ) < 2 := by omega
    have hcast : (((2 : ℕ)) : ℚ) = (2 : ℚ) := by norm_num
    have hlow : (2 : ℚ) ^ Int.log 2 |q| ≤ |q| := by
      have := Int.zpow_log_le_self hb habs
      rwa [hcast] at this
    have h2ne : (2 : ℚ) ≠ 0 := by norm_num
    have hmulpow : ∀ a b : Int, (2 : ℚ) ^ a * (2 : ℚ) ^ b = 2 ^ (a + b) :=
      fun a b => (zpow_add₀ h2ne a b).symm
    have hqm : |q| * 2 ^ ((52 : Int) - Int.log 2 |q|) * 2 ^ (Int.log 2 |q| - 52) = |q| := by
      rw [mul_assoc, hmulpow]
      norm_num
    have herr := roundEven_err (|q| * 2 ^ ((52 : Int) - Int.log 2 |q|))
    have hpw : (0 : ℚ) < 2 ^ (Int.log 2 |q| - 52) := zpow_pos (by norm_num) _
    have hkey : |fl64 q - q| =
        |(roundEven (|q| * 2 ^ ((52 : Int) - Int.log 2 |q|)) : ℚ) -
          |q| * 2 ^ ((52 : Int) - Int.log 2 |q|)| * 2 ^ (Int.log 2 |q| - 52) := by
      rw [fl64, if_neg hq]
      rcases lt_or_gt_of_ne hq with hneg | hpos
      · rw [if_pos hneg]
        have habsq : |q| = -q := abs_of_neg hneg
        calc |(-1 : ℚ) * (roundEven (|q| * 2 ^ ((52 : Int) - Int.log 2 |q|)) : ℚ) *
              2 ^ (Int.log 2 |q| - 52) - q|
            = |((roundEven (|q| * 2 ^ ((52 : Int) - Int.log 2 |q|)) : ℚ) -
                |q| * 2 ^ ((52 : Int) - Int.log 2 |q|)) * 2 ^ (Int.log 2 |q| - 52)| := by
              rw [abs_sub_comm]
              congr 1
              rw [sub_mul, hqm, habsq]
              ring
          _ = _ := by rw [abs_mul, abs_of_pos hpw]
      · rw [if_neg (by linarith)]
        have habsq : |q| = q := abs_of_pos hpos
        calc |(1 : ℚ) * (roundEven (|q| * 2 ^ ((52 : Int) - Int.log 2 |q|)) : ℚ) *
              2 ^ (Int.log 2 |q| - 52) - q|
            = |((roundEven (|q| * 2 ^ ((52 : Int) - Int.log 2 |q|)) : ℚ) -
                |q| * 2 ^ ((52 : Int) - Int.log 2 |q|)) * 2 ^ (Int.log 2 |q| - 52)| := by
              congr 1
              rw [sub_mul, hqm, habsq]
              ring
          _ = _ := by rw [abs_mul, abs_of_pos hpw]
    rw [hkey]
    have hstep : |(roundEven (|q| * 2 ^ ((52 : Int) - Int.log 2 |q|)) : ℚ) -
        |q| * 2 ^ ((52 : Int) - Int.log 2 |q|)| * 2 ^ (Int.log 2 |q| - 52) ≤
        (1 / 2) * 2 ^ (Int.log 2 |q| - 52) :=
      mul_le_mul_of_nonneg_right herr hpw.le
    have hhalf : (1 / 2 : ℚ) * 2 ^ (Int.log 2 |q| - 52) =
        (2 : ℚ) ^ Int.log 2 |q| * (2 : ℚ) ^ (-53 : Int) := by
      rw [show (1 / 2 : ℚ) = (2 : ℚ) ^ (-1 : Int) by norm_num]
      rw [hmulpow, hmulpow]
      congr 1
      omega
    have hfin : (2 : ℚ) ^ Int.log 2 |q| * (2 : ℚ) ^ (-53 : Int) ≤
        |q| / 9007199254740992 := by
      have hpw53 : (2 : ℚ) ^ (-53 : Int) = 1 / 9007199254740992 := by
        rw [show (-53 : Int) = -((53 : ℕ) : Int) by norm_num, zpow_neg, zpow_natCast]
        norm_num
      rw [hpw53]
      calc (2 : ℚ) ^ Int.log 2 |q| * (1 / 9007199254740992) ≤
          |q| * (1 / 9007199254740992) :=
            mul_le_mul_of_nonneg_right hlow (by norm_num)
        _ = |q| / 9007199254740992 := by ring
    calc |(roundEven (|q| * 2 ^ ((52 : Int) - Int.log 2 |q|)) : ℚ) -
        |q| * 2 ^ ((52 : Int) - Int.log 2 |q|)| * 2 ^ (Int.log 2 |q| - 52)
        ≤ (1 / 2) * 2 ^ (Int.log 2 |q| - 52) := hstep
      _ = (2 : ℚ) ^ Int.log 2 |q| * (2 : ℚ) ^ (-53 : Int) := hhalf
      _ ≤ |q| / 9007199254740992 := hfin

/-- Evaluation principle for `fl64` on concrete positive values with a
negative binary exponent `-k`. -/
theorem fl64_eval_neg (q : ℚ) (k : ℕ) (n : Int) (hq : 0 < q)
    (h1 : 1 ≤ q * 2 ^ k) (h2 : q * 2 ^ k < 2)
    (hn : roundEven (q * 2 ^ (52 + k)) = n) :
    fl64 q = (n : ℚ) / 2 ^ (52 + k) := by
  have hqne : q ≠ 0 := ne_of_gt hq
  have habs : |q| = q := abs_of_pos hq
  have hpk : (0 : ℚ) < 2 ^ k := by positivity
  have h2ne : (2 : ℚ) ≠ 0 := by norm_num
  have hloge : Int.log 2 q = -(k : Int) := by
    apply int_log_eq q (-(k : Int)) hq
    · have hstep : ((2 : ℚ) ^ k)⁻¹ * (q * 2 ^ k) = q := by field_simp
      calc (2 : ℚ) ^ (-(k : Int)) = ((2 : ℚ) ^ k)⁻¹ := by
            rw [zpow_neg, zpow_natCast]
        _ = ((2 : ℚ) ^ k)⁻¹ * 1 := by ring
        _ ≤ ((2 : ℚ) ^ k)⁻¹ * (q * 2 ^ k) :=
            mul_le_mul_of_nonneg_left h1 (by positivity)
        _ = q := hstep
    · have hstep : q * 2 ^ k * ((2 : ℚ) ^ k)⁻¹ = q := by field_simp
      calc q = q * 2 ^ k * ((2 : ℚ) ^ k)⁻¹ := hstep.symm
        _ < 2 * ((2 : ℚ) ^ k)⁻¹ := mul_lt_mul_of_pos_right h2 (by positivity)
        _ = (2 : ℚ) ^ (-(k : Int) + 1) := by
            rw [zpow_add₀ h2ne, zpow_neg, zpow_natCast, zpow_one]
            ring
  rw [fl64, if_neg hqne, if_neg (not_lt.mpr hq.le), habs, hloge]
  have harg : (2 : ℚ) ^ ((52 : Int) - -(k : Int)) = 2 ^ (52 + k) := by
    rw [show (52 : Int) - -(k : Int) = ((52 + k : ℕ) : Int) by push_cast; ring,
      zpow_natCast]
  rw [harg, hn]
  have hout : (2 : ℚ) ^ (-(k : Int) - 52) = ((2 : ℚ) ^ (52 + k))⁻¹ := by
    rw [show -(k : Int) - 52 = -((52 + k : ℕ) : Int) by push_cast; ring, zpow_neg,
      zpow_natCast]
  rw [hout]
  ring

theorem truncQ_abs_lt (v : ℚ) (m : Int) (h : |v| < (m : ℚ) + 1) :
    |truncQ v| ≤ m := by
  rcases abs_lt.mp h with ⟨hlo, hhi⟩
  unfold truncQ
  by_cases h0 : 0 ≤ v
  · rw [if_pos h0]
    have hf0 : 0 ≤ ⌊v⌋ := Int.floor_nonneg.mpr h0
    have hfm : ⌊v⌋ < m + 1 := by
      apply Int.floor_lt.mpr
      push_cast
      linarith
    rw [abs_of_nonneg hf0]; omega
  · rw [if_neg h0]
    push_neg at h0
    have hc0 : ⌈v⌉ ≤ 0 := by
      have := Int.ceil_le_ceil h0.le
      simpa using this
    have hcm : -(m + 1) < ⌈v⌉ := by
      apply Int.lt_ceil.mpr
      push_cast
      linarith
    rw [abs_of_nonpos hc0]; omega

theorem truncQ_abs_ge (v : ℚ) (m : Int) (hm : 0 ≤ m) (h : (m : ℚ) ≤ |v|) :
    m ≤ |truncQ v| := by
  unfold truncQ
  by_cases h0 : 0 ≤ v
  · rw [if_pos h0]
    rw [abs_of_nonneg h0] at h
    have h1 : m ≤ ⌊v⌋ := Int.le_floor.mpr (by exact_mod_cast h)
    have hf0 : 0 ≤ ⌊v⌋ := le_trans hm h1
    rw [abs_of_nonneg hf0]; exact h1
  · rw [if_neg h0]
    push_neg at h0
    rw [abs_of_neg h0] at h
    have h1 : ⌈v⌉ ≤ -m := Int.ceil_le.mpr (by push_cast; linarith)
    have hc0 : ⌈v⌉ ≤ 0 := le_trans h1 (by omega)
    rw [abs_of_nonpos hc0]; omega

/-- Accumulated double-rounding error of `NormalizeSamples`: scaling a
sample `s` with `|s| ≤ p` by the rounded scale `fl64 (t / p)` and
rounding again lands within `1/2` of the exact value `s * t / p` for
targets up to 32767. -/
theorem fl64_mul_close (t p s : Int) (hp : 0 < p) (ht0 : 0 ≤ t) (ht1 : t ≤ 32767)
    (hs : |s| ≤ p) :
    |fl64 ((s : ℚ) * fl64 ((t : ℚ) / (p : ℚ))) - (s : ℚ) * ((t : ℚ) / (p : ℚ))| ≤
      1 / 2 := by
  have hpQ : (0 : ℚ) < (p : ℚ) := by exact_mod_cast hp
  have htQ0 : (0 : ℚ) ≤ (t : ℚ) := by exact_mod_cast ht0
  have htQ1 : (t : ℚ) ≤ 32767 := by exact_mod_cast ht1
  have ha0 : (0 : ℚ) ≤ (t : ℚ) / (p : ℚ) := div_nonneg htQ0 hpQ.le
  have hsQ : |(s : ℚ)| ≤ (p : ℚ) := by
    rw [← Int.cast_abs]; exact_mod_cast hs
  have hpa : (p : ℚ) * ((t : ℚ) / (p : ℚ)) = (t : ℚ) := by field_simp
  have h1 : |fl64 ((t : ℚ) / (p : ℚ)) - (t : ℚ) / (p : ℚ)| ≤
      ((t : ℚ) / (p : ℚ)) / 9007199254740992 := by
    have := fl64_err ((t : ℚ) / (p : ℚ))
    rwa [abs_of_nonneg ha0] at this
  have hcb : |fl64 ((t : ℚ) / (p : ℚ))| ≤
      (t : ℚ) / (p : ℚ) + ((t : ℚ) / (p : ℚ)) / 9007199254740992 := by
    have h4 := abs_add ((t : ℚ) / (p : ℚ))
      (fl64 ((t : ℚ) / (p : ℚ)) - (t : ℚ) / (p : ℚ))
    rw [show (t : ℚ) / (p : ℚ) + (fl64 ((t : ℚ) / (p : ℚ)) - (t : ℚ) / (p : ℚ)) =
      fl64 ((t : ℚ) / (p : ℚ)) by ring] at h4
    rw [abs_of_nonneg ha0] at h4
    linarith
  have h2 := fl64_err ((s : ℚ) * fl64 ((t : ℚ) / (p : ℚ)))
  have hmid : |(s : ℚ) * fl64 ((t : ℚ) / (p : ℚ)) - (s : ℚ) * ((t : ℚ) / (p : ℚ))| ≤
      (t : ℚ) / 9007199254740992 := by
    rw [← mul_sub, abs_mul]
    calc |(s : ℚ)| * |fl64 ((t : ℚ) / (p : ℚ)) - (t : ℚ) / (p : ℚ)| ≤
        (p : ℚ) * (((t : ℚ) / (p : ℚ)) / 9007199254740992) :=
          mul_le_mul hsQ h1 (abs_nonneg _) hpQ.le
      _ = ((p : ℚ) * ((t : ℚ) / (p : ℚ))) / 9007199254740992 := by ring
      _ = (t : ℚ) / 9007199254740992 := by rw [hpa]
  have hsc : |(s : ℚ) * fl64 ((t : ℚ) / (p : ℚ))| ≤
      (t : ℚ) + (t : ℚ) / 9007199254740992 := by
    rw [abs_mul]
    calc |(s : ℚ)| * |fl64 ((t : ℚ) / (p : ℚ))| ≤
        (p : ℚ) * ((t : ℚ) / (p : ℚ) + ((t : ℚ) / (p : ℚ)) / 9007199254740992) :=
          mul_le_mul hsQ hcb (abs_nonneg _) hpQ.le
      _ = (p : ℚ) * ((t : ℚ) / (p : ℚ)) +
          ((p : ℚ) * ((t : ℚ) / (p : ℚ))) / 9007199254740992 := by ring
      _ = (t : ℚ) + (t : ℚ) / 9007199254740992 := by rw [hpa]
  have htri := abs_sub_le (fl64 ((s : ℚ) * fl64 ((t : ℚ) / (p : ℚ))))
    ((s : ℚ) * fl64 ((t : ℚ) / (p : ℚ))) ((s : ℚ) * ((t : ℚ) / (p : ℚ)))
  have hlast : |fl64 ((s : ℚ) * fl64 ((t : ℚ) / (p : ℚ))) -
      (s : ℚ) * fl64 ((t : ℚ) / (p : ℚ))| ≤
      ((t : ℚ) + (t : ℚ) / 9007199254740992) / 9007199254740992 := by
    calc |fl64 ((s : ℚ) * fl64 ((t : ℚ) / (p : ℚ))) -
        (s : ℚ) * fl64 ((t : ℚ) / (p : ℚ))| ≤
        |(s : ℚ) * fl64 ((t : ℚ) / (p : ℚ))| / 9007199254740992 := h2
      _ ≤ ((t : ℚ) + (t : ℚ) / 9007199254740992) / 9007199254740992 := by gcongr
  linarith

/-- The saturation branches of `NormalizeSamples` agree with plain
truncation whenever the rounded value has magnitude at most `32767.5`. -/
theorem clampBranch_eq_truncQ (v : ℚ) (h : |v| ≤ 32767 + 1 / 2) :
    (if v > 32767 then (32767 : Int) else if v < -32768 then -32768 else truncQ v) =
      truncQ v := by
  rcases abs_le.mp h with ⟨hlo, hhi⟩
  by_cases h1 : v > 32767
  · rw [if_pos h1]
    have h0 : (0 : ℚ) ≤ v := by linarith
    rw [truncQ, if_pos h0]
    symm
    apply Int.floor_eq_iff.mpr
    constructor
    · push_cast; linarith
    · push_cast; linarith
  · rw [if_neg h1, if_neg (by linarith)]

/-! Helper lemmas about the loop skeletons. -/

theorem collectIdx_ok (f : Nat → Except MixError Int) (g : Nat → Int) (l : List Nat)
    (h : ∀ i ∈ l, f i = Except.ok (g i)) :
    collectIdx f l = Except.ok (l.map g) := by
  induction l with
  | nil => rfl
  | cons i is ih =>
    have hi : f i = Except.ok (g i) := h i (by simp)
    have hrest := ih (fun j hj => h j (by simp [hj]))
    simp [collectIdx, hi, hrest]

theorem collectIdx_error (f : Nat → Except MixError Int) (e : MixError) (l : List Nat)
    (hne : l ≠ []) (h : ∀ i ∈ l, f i = Except.error e) :
    collectIdx f l = Except.error e := by
  cases l with
  | nil => exact absurd rfl hne
  | cons i is =>
    have hi : f i = Except.error e := h i (by simp)
    simp [collectIdx, hi]

theorem collectIdx_mem (f : Nat → Except MixError Int) (l : List Nat)
    (out : List Int) (h : collectIdx f l = Except.ok out) :
    ∀ y ∈ out, ∃ i ∈ l, f i = Except.ok y := by
  induction l generalizing out with
  | nil =>
    simp only [collectIdx, Except.ok.injEq] at h
    subst h; simp
  | cons i is ih =>
    intro y hy
    rcases hfi : f i with e | v
    · rw [collectIdx, hfi] at h; cases h
    · rcases hrest : collectIdx f is with e | vs
      · rw [collectIdx, hfi, hrest] at h; cases h
      · rw [collectIdx, hfi, hrest] at h
        cases h
        rcases List.mem_cons.mp hy with h1 | h1
        · exact ⟨i, by simp, by rw [hfi, h1]⟩
        · rcases ih vs hrest y h1 with ⟨j, hj, hfj⟩
          exact ⟨j, by simp [hj], hfj⟩

theorem sumLoop_ok (n i : Nat) (hi : i < n) (ws : List (List Int)) :
    ∀ acc : Int,
      (∀ w ∈ ws, w.length = n) →
      (∀ w ∈ ws, ∀ x ∈ w, -32768 ≤ x ∧ x ≤ 32767) →
      |acc| + 32768 * (ws.length : Int) ≤ 2 ^ 31 →
      sumLoop n i acc ws = Except.ok (ws.foldl (fun s w => s + w.getD i 0) acc) := by
  induction ws with
  | nil => intro acc _ _ _; rfl
  | cons w rest ih =>
    intro acc hlen hrange hbound
    have hw : w.length = n := hlen w (by simp)
    have hmem : w.getD i 0 ∈ w := by
      rw [List.getD_eq_getElem w 0 (by omega)]
      exact List.getElem_mem _
    have hx := hrange w (by simp) _ hmem
    have habs := abs_le.mp (show |acc| ≤ 2 ^ 31 - 32768 * ((rest.length : Int) + 1) by
      simp only [List.length_cons] at hbound; push_cast at hbound ⊢; omega)
    have hwrap : wrap32 (acc + w.getD i 0) = acc + w.getD i 0 := by
      apply wrap32_eq_self <;> omega
    have habs2 : |acc + w.getD i 0| + 32768 * (rest.length : Int) ≤ 2 ^ 31 := by
      have h1 : |acc + w.getD i 0| ≤ |acc| + 32768 := by
        have := abs_add acc (w.getD i 0)
        have h2 : |w.getD i 0| ≤ 32768 := abs_le.mpr ⟨by omega, by omega⟩
        omega
      have h3 := abs_le.mpr (show -(2 ^ 31 - 32768 * ((rest.length : Int) + 1)) ≤ acc ∧
          acc ≤ 2 ^ 31 - 32768 * ((rest.length : Int) + 1) from ⟨habs.1, habs.2⟩)
      omega
    rw [sumLoop, if_neg (by omega), hwrap, List.foldl_cons]
    exact ih (acc + w.getD i 0) (fun v hv => hlen v (by simp [hv]))
      (fun v hv => hrange v (by simp [hv])) habs2

theorem sumLoop_error (n i : Nat) (ws : List (List Int)) :
    (∃ w ∈ ws, w.length ≠ n) →
    ∀ acc : Int, sumLoop n i acc ws = Except.error MixError.lengthMismatch := by
  induction ws with
  | nil => intro h; simp at h
  | cons w rest ih =>
    intro hmis acc
    by_cases hw : w.length = n
    · have hrest : ∃ v ∈ rest, v.length ≠ n := by
        rcases hmis with ⟨v, hv, hvn⟩
        rcases List.mem_cons.mp hv with h1 | h1
        · exact absurd (h1 ▸ hw) hvn
        · exact ⟨v, h1, hvn⟩
      rw [sumLoop, if_neg (by omega)]
      exact ih hrest _
    · rw [sumLoop, if_pos (by omega)]

theorem rmsLoop_ok (n i : Nat) (ws : List (List Int)) :
    ∀ acc : Int,
      (∀ w ∈ ws, w.length = n) →
      rmsLoop n i acc ws =
        Except.ok (ws.foldl (fun s w => s + w.getD i 0 * w.getD i 0) acc) := by
  induction ws with
  | nil => intro acc _; rfl
  | cons w rest ih =>
    intro acc hlen
    have hw : w.length = n := hlen w (by simp)
    rw [rmsLoop, if_neg (by omega), List.foldl_cons]
    exact ih _ (fun v hv => hlen v (by simp [hv]))

theorem rmsLoop_error (n i : Nat) (ws : List (List Int)) :
    (∃ w ∈ ws, w.length ≠ n) →
    ∀ acc : Int, rmsLoop n i acc ws = Except.error MixError.lengthMismatch := by
  induction ws with
  | nil => intro h; simp at h
  | cons w rest ih =>
    intro hmis acc
    by_cases hw : w.length = n
    · have hrest : ∃ v ∈ rest, v.length ≠ n := by
        rcases hmis with ⟨v, hv, hvn⟩
        rcases List.mem_cons.mp hv with h1 | h1
        · exact absurd (h1 ▸ hw) hvn
        · exact ⟨v, h1, hvn⟩
      rw [rmsLoop, if_neg (by omega)]
      exact ih hrest _
    · rw [rmsLoop, if_pos (by omega)]

theorem wsumLoop_error (n i : Nat) (ps : List (List Int × ℚ)) :
    (∃ p ∈ ps, p.1.length ≠ n) →
    ∀ acc : ℚ, wsumLoop n i acc ps = Except.error MixError.lengthMismatch := by
  induction ps with
  | nil => intro h; simp at h
  | cons p rest ih =>
    intro hmis acc
    by_cases hp : p.1.length = n
    · have hrest : ∃ q ∈ rest, q.1.length ≠ n := by
        rcases hmis with ⟨q, hq, hqn⟩
        rcases List.mem_cons.mp hq with h1 | h1
        · exact absurd (h1 ▸ hp) hqn
        · exact ⟨q, h1, hqn⟩
      rw [wsumLoop, if_neg (by omega)]
      exact ih hrest _
    · rw [wsumLoop, if_pos (by omega)]

/-! Helper lemmas about the peak-amplitude fold. -/

theorem peakAbs_init_le (l : List Int) :
    ∀ acc : Int, acc ≤ l.foldl (fun m s => max m |s|) acc := by
  induction l with
  | nil => intro acc; simp
  | cons x xs ih =>
    intro acc
    calc acc ≤ max acc |x| := le_max_left _ _
    _ ≤ xs.foldl (fun m s => max m |s|) (max acc |x|) := ih _

theorem peakAbs_le_of_mem (l : List Int) :
    ∀ acc : Int, ∀ s ∈ l, |s| ≤ l.foldl (fun m s => max m |s|) acc := by
  induction l with
  | nil => intro acc s hs; simp at hs
  | cons x xs ih =>
    intro acc s hs
    rcases List.mem_cons.mp hs with h | h
    · subst h
      calc |s| ≤ max acc |s| := le_max_right _ _
      _ ≤ xs.foldl (fun m r => max m |r|) (max acc |s|) := peakAbs_init_le _ _
    · exact ih _ s h

theorem peakAbs_le_bound (l : List Int) :
    ∀ acc b : Int, acc ≤ b → (∀ s ∈ l, |s| ≤ b) →
      l.foldl (fun m s => max m |s|) acc ≤ b := by
  induction l with
  | nil => intro acc b h _; simpa using h
  | cons x xs ih =>
    intro acc b hacc hall
    simp only [List.foldl_cons]
    exact ih _ b (max_le hacc (hall x (by simp))) (fun s hs => hall s (by simp [hs]))

theorem peakAbs_attained (l : List Int) :
    ∀ acc : Int, l.foldl (fun m s => max m |s|) acc = acc ∨
      ∃ s ∈ l, l.foldl (fun m s => max m |s|) acc = |s| := by
  induction l with
  | nil => intro acc; left; rfl
  | cons x xs ih =>
    intro acc
    simp only [List.foldl_cons]
    rcases ih (max acc |x|) with h | h
    · rcases max_choice acc |x| with hm | hm
      · left; rw [h, hm]
      · right; exact ⟨x, by simp, by rw [h, hm]⟩
    · rcases h with ⟨s, hs, hval⟩
      right; exact ⟨s, by simp [hs], hval⟩

theorem findPeakAmplitude_eq_peakAbs (samples : List Int)
    (hrange : ∀ s ∈ samples, -32767 ≤ s ∧ s ≤ 32767) :
    FindPeakAmplitude samples = peakAbs samples := by
  unfold FindPeakAmplitude peakAbs
  apply List.foldl_ext
  intro m s hs
  have habs : |s| ≤ 32767 := abs_le.mpr (hrange s hs)
  have h0 : (0 : Int) ≤ |s| := abs_nonneg s
  rw [wrap16_eq_self |s| (by omega) (by omega)]
  rcases le_or_lt |s| m with h | h
  · rw [if_neg (by omega), max_eq_left h]
  · rw [if_pos (by omega), max_eq_right h.le]

/-! Claim theorems. -/

/-- C1: for every non-empty collection of equal-length waveforms (samples
in the int16 range, input count within the `int32` accumulator's safe
capacity), `LinearSummation` succeeds and returns a waveform of the same
length whose entry at `i` is the sum of the inputs' samples at `i`,
accumulated in the wider `int32` range and clamped to `[-32768, 32767]`;
in particular for two waveforms `a` and `b` the entry at `i` is
`saturate (a[i] + b[i])`. -/
theorem linearSummation_spec (ws : List (List Int)) (n : Nat)
    (hne : ws ≠ [])
    (hlen : ∀ w ∈ ws, w.length = n)
    (hrange : ∀ w ∈ ws, ∀ x ∈ w, -32768 ≤ x ∧ x ≤ 32767)
    (hcount : ws.length ≤ 32768) :
    ∃ out, LinearSummation ws = Except.ok out ∧ out.length = n ∧
      (∀ i, i < n → out.getD i 0 =
        clamp16 (ws.foldl (fun s w => s + w.getD i 0) 0)) ∧
      (∀ a b : List Int, ws = [a, b] → ∀ i, i < n →
        out.getD i 0 = clamp16 (a.getD i 0 + b.getD i 0)) := by
  obtain ⟨w0, rest, rfl⟩ : ∃ w0 rest, ws = w0 :: rest := by
    cases ws with
    | nil => exact absurd rfl hne
    | cons a l => exact ⟨a, l, rfl⟩
  have hhead : ((w0 :: rest).headD []).length = n := hlen w0 (by simp)
  have hcount2 : ((w0 :: rest).length : Int) ≤ 32768 := by exact_mod_cast hcount
  refine ⟨(List.range n).map
      (fun i => clamp16 ((w0 :: rest).foldl (fun s w => s + w.getD i 0) 0)), ?_, ?_, ?_, ?_⟩
  · rw [LinearSummation, if_neg (by simp)]
    rw [show (w0 :: rest).headD [] = w0 from rfl] at hhead ⊢
    rw [hhead]
    apply collectIdx_ok
    intro i hi
    have hin : i < n := List.mem_range.mp hi
    rw [sumLoop_ok n i hin (w0 :: rest) 0 hlen hrange
      (by simp only [abs_zero]; omega)]
  · simp
  · intro i hi
    rw [List.getD_eq_getElem _ 0 (by simpa using hi)]
    simp
  · rintro a b heq i hi
    have h1 : w0 = a ∧ rest = [b] := by simpa using heq
    obtain ⟨rfl, rfl⟩ := h1
    rw [List.getD_eq_getElem _ 0 (by simpa using hi)]
    simp

/-- C1 witness: the theorem applied to the pair `[1, 30000]`, `[2, 30000]`
(the second sum saturates at 32767). -/
theorem linearSummation_spec_witness :
    (([[1, 30000], [2, 30000]] : List (List Int)) ≠ []) ∧
    (∃ out, LinearSummation [[1, 30000], [2, 30000]] = Except.ok out ∧ out.length = 2 ∧
      (∀ i, i < 2 → out.getD i 0 =
        clamp16 (([[1, 30000], [2, 30000]] : List (List Int)).foldl
          (fun s w => s + w.getD i 0) 0)) ∧
      (∀ a b : List Int, ([[1, 30000], [2, 30000]] : List (List Int)) = [a, b] → ∀ i, i < 2 →
        out.getD i 0 = clamp16 (a.getD i 0 + b.getD i 0))) :=
  ⟨by decide, linearSummation_spec [[1, 30000], [2, 30000]] 2 (by decide)
    (by decide) (by decide) (by decide)⟩

/-- C3: the absolute-value computation of `FindPeakAmplitude` is not
capped: on the most negative sample `-32768` the conversion
`int16(math.Abs(float64(s)))` wraps to `-32768`, which is never taken as
a new maximum, so the function returns `0` instead of the correct
non-negative maximum.  On inputs free of `-32768` it does return the
maximum absolute value, with `0` for the empty waveform. -/
theorem findPeakAmplitude_minValue_bug :
    FindPeakAmplitude [-32768] = 0 ∧
    wrap16 |(-32768 : Int)| = -32768 ∧
    FindPeakAmplitude [100, -200, 50] = 200 ∧
    FindPeakAmplitude [] = 0 := by decide

/-- C8: every sample of a successful `RMSMixing` output is non-negative:
the root-mean-square value is a (floor of a) square root, hence
non-negative, and clamping preserves that, so the lower saturation branch
can never produce the output value. -/
theorem rmsMixing_nonneg (samples : List (List Int)) (out : List Int)
    (h : RMSMixing samples = Except.ok out) :
    ∀ x ∈ out, 0 ≤ x := by
  intro x hx
  rw [RMSMixing] at h
  by_cases h0 : samples.length = 0
  · rw [if_pos h0] at h; cases h
  · rw [if_neg h0] at h
    rcases collectIdx_mem _ _ _ h x hx with ⟨i, _, hfi⟩
    rcases hloop : rmsLoop (samples.headD []).length i 0 samples with e | s
    · rw [hloop] at hfi; cases hfi
    · rw [hloop] at hfi
      cases hfi
      unfold clamp16
      have : (0 : Int) ≤ Int.ofNat (Nat.sqrt (s.toNat / samples.length)) :=
        Int.ofNat_nonneg _
      split
      · omega
      · split <;> omega

/-- C8 witness: the theorem applied to the concrete call
`RMSMixing [[-3]] = ok [3]`. -/
theorem rmsMixing_nonneg_witness :
    RMSMixing [[(-3 : Int)]] = Except.ok [3] ∧ ∀ x ∈ ([3] : List Int), 0 ≤ x := by
  have hok : RMSMixing [[(-3 : Int)]] = Except.ok [3] := by
    have hstep : RMSMixing [[(-3 : Int)]] =
        Except.ok [clamp16 (Int.ofNat (Nat.sqrt 9))] := rfl
    rw [hstep, sqrt_eval 9 3 (by omega) (by omega)]
    rfl
  exact ⟨hok, rmsMixing_nonneg [[(-3 : Int)]] [3] hok⟩

/-- C10: `LowPassFilter` is not total: it writes `output[0] = input[0]`
before its loop, so the empty waveform makes every call fail with an
out-of-range index access (modelled as `none`), while every non-empty
input yields an output of the same length whose first sample is the first
input sample. -/
theorem lowPassFilter_empty_none (samples : List Int) (alpha : ℚ) :
    (samples = [] → LowPassFilter samples alpha = none) ∧
    (samples ≠ [] → ∃ out, LowPassFilter samples alpha = some out ∧
      out.length = samples.length ∧ out.headD 0 = samples.headD 0) := by
  constructor
  · intro h; subst h; rfl
  · intro h
    cases samples with
    | nil => exact absurd rfl h
    | cons x rest =>
      refine ⟨x :: lowPassRest alpha x rest, rfl, ?_, rfl⟩
      simp only [List.length_cons]
      have : ∀ (l : List Int) (a : ℚ) (p : Int), (lowPassRest a p l).length = l.length := by
        intro l
        induction l with
        | nil => intro a p; rfl
        | cons y ys ih => intro a p; simp [lowPassRest, ih]
      rw [this]

/-- C10 witness: the theorem applied at the empty waveform and at `[7]`. -/
theorem lowPassFilter_empty_none_witness :
    LowPassFilter [] (1 / 2) = none ∧
    (∃ out, LowPassFilter [7] (1 / 2) = some out ∧
      out.length = ([7] : List Int).length ∧ out.headD 0 = ([7] : List Int).headD 0) :=
  ⟨(lowPassFilter_empty_none [] (1 / 2)).1 rfl,
    (lowPassFilter_empty_none [7] (1 / 2)).2 (by decide)⟩

/-- Helper: `collectIdx` over a single index reduces to its body. -/
theorem collectIdx_singleton (f : Nat → Except MixError Int) (i : Nat) :
    collectIdx f [i] =
      match f i with
      | Except.error e => Except.error e
      | Except.ok v => Except.ok [v] := by
  cases h : f i <;> simp [collectIdx, h]

/-- C4 counterexample: when the first waveform is empty, a length
mismatch in a later waveform is never examined — all three strategies
return an empty output with no error instead of `LengthMismatch`. -/
theorem lengthMismatch_emptyFirst_counterexample :
    LinearSummation [([] : List Int), [1]] = Except.ok [] ∧
    RMSMixing [([] : List Int), [1]] = Except.ok [] ∧
    WeightedSummation [1, 1] [([] : List Int), [1]] = Except.ok [] ∧
    (Except.ok ([] : List Int) : Except MixError (List Int)) ≠
      Except.error MixError.lengthMismatch := by
  refine ⟨rfl, rfl, rfl, ?_⟩
  intro h; cases h

/-- C4 (amended): whenever the first waveform is non-empty, a supplied
waveform whose length differs from the first waveform's length makes
`LinearSummation`, `RMSMixing` and `WeightedSummation` (weight count
matching the waveform count) fail with `LengthMismatch`, returning no
partial result; the mismatch is detected during the per-index pass (at
the first index) and aborts the whole operation. -/
theorem lengthMismatch_spec (ws : List (List Int)) (weights : List ℚ) (n : Nat)
    (hw : weights.length = ws.length)
    (hn : (ws.headD []).length = n) (hpos : 0 < n)
    (hmis : ∃ w ∈ ws, w.length ≠ n) :
    LinearSummation ws = Except.error MixError.lengthMismatch ∧
    RMSMixing ws = Except.error MixError.lengthMismatch ∧
    WeightedSummation weights ws = Except.error MixError.lengthMismatch := by
  have hne : ws ≠ [] := by
    rcases hmis with ⟨w, hwm, _⟩
    intro h; subst h; simp at hwm
  have hlen0 : ¬ ws.length = 0 := by
    simpa [List.length_eq_zero] using hne
  have hrange_ne : List.range n ≠ [] := by
    simpa [List.range_eq_nil] using Nat.pos_iff_ne_zero.mp hpos
  have hmisz : ∃ p ∈ ws.zip weights, p.1.length ≠ n := by
    rcases hmis with ⟨w, hwmem, hwn⟩
    rcases List.getElem_of_mem hwmem with ⟨j, hj, hjw⟩
    have hjz : j < (ws.zip weights).length := by
      rw [List.length_zip]; omega
    refine ⟨(ws.zip weights)[j], List.getElem_mem _, ?_⟩
    rw [List.getElem_zip]
    simpa [hjw] using hwn
  refine ⟨?_, ?_, ?_⟩
  · rw [LinearSummation, if_neg hlen0, hn]
    apply collectIdx_error _ _ _ hrange_ne
    intro i _
    dsimp only
    rw [sumLoop_error n i ws hmis 0]
  · rw [RMSMixing, if_neg hlen0, hn]
    apply collectIdx_error _ _ _ hrange_ne
    intro i _
    dsimp only
    rw [rmsLoop_error n i ws hmis 0]
  · rw [WeightedSummation, if_neg (by simp [hw]), if_neg hlen0, hn]
    apply collectIdx_error _ _ _ hrange_ne
    intro i _
    dsimp only
    rw [wsumLoop_error n i (ws.zip weights) hmisz 0]

/-- C4 witness: the amended theorem applied at `[[5], [1, 2]]` with
weights `[1, 1]`. -/
theorem lengthMismatch_spec_witness :
    (([1, 1] : List ℚ).length = ([[5], [1, 2]] : List (List Int)).length ∧
      (([[5], [1, 2]] : List (List Int)).headD []).length = 1 ∧ 0 < 1 ∧
      (∃ w ∈ ([[5], [1, 2]] : List (List Int)), w.length ≠ 1)) ∧
    (LinearSummation [[5], [1, 2]] = Except.error MixError.lengthMismatch ∧
      RMSMixing [[5], [1, 2]] = Except.error MixError.lengthMismatch ∧
      WeightedSummation [1, 1] [[5], [1, 2]] = Except.error MixError.lengthMismatch) :=
  ⟨⟨by decide, by decide, by decide, by decide⟩,
    lengthMismatch_spec [[5], [1, 2]] [1, 1] 1 (by decide) (by decide) (by decide)
      (by decide)⟩

/-- C5 counterexample: `WeightedSummation` with a non-empty weight list
and zero waveforms fails with `WeightCountMismatch`, not `EmptyInput`,
because the weight-count check precedes the empty-input check. -/
theorem emptyInput_weighted_counterexample :
    WeightedSummation [1 / 2] [] = Except.error MixError.weightCountMismatch ∧
    MixError.weightCountMismatch ≠ MixError.emptyInput := by
  refine ⟨rfl, ?_⟩
  intro h; cases h

/-- C5 (amended): with zero waveforms `LinearSummation` and `RMSMixing`
fail with `EmptyInput`; `WeightedSummation` fails with `EmptyInput` only
when the weight list is also empty, and otherwise fails with
`WeightCountMismatch` (its weight-count check runs first). -/
theorem emptyInput_spec :
    LinearSummation [] = Except.error MixError.emptyInput ∧
    RMSMixing [] = Except.error MixError.emptyInput ∧
    (∀ weights : List ℚ, WeightedSummation weights [] =
      if weights.length = 0 then Except.error MixError.emptyInput
      else Except.error MixError.weightCountMismatch) := by
  refine ⟨rfl, rfl, ?_⟩
  intro weights
  cases weights with
  | nil => rfl
  | cons w ws =>
    rw [if_neg (by simp)]
    rw [WeightedSummation, if_pos (by simp)]

/-- C6 counterexample: `WeightedSummation [0.5, 0.5]` narrows with Go's
truncating conversion, not round-to-nearest: on inputs `[3]` and `[0]`
the weighted sum is `1.5`, the code yields `1`, while the claimed
`saturate (round (0.5·3 + 0.5·0))` is `2`. -/
theorem weightedSummation_round_counterexample :
    WeightedSummation [1 / 2, 1 / 2] [[3], [0]] = Except.ok [1] ∧
    clamp16 (round ((1 / 2 : ℚ) * 3 + (1 / 2 : ℚ) * 0)) = 2 ∧ (1 : Int) ≠ 2 := by
  refine ⟨?_, ?_, by decide⟩
  · rw [WeightedSummation, if_neg (by simp), if_neg (by simp)]
    rw [show (([[3], [0]] : List (List Int)).headD []).length = 1 from rfl]
    rw [show List.range 1 = [0] from rfl, collectIdx_singleton]
    have h1 : wsumLoop 1 0 0 (([[3], [0]] : List (List Int)).zip [(1 : ℚ) / 2, 1 / 2]) =
        Except.ok (3 / 2) := by
      rw [show (([[3], [0]] : List (List Int)).zip [(1 : ℚ) / 2, 1 / 2]) =
        [([3], (1 : ℚ) / 2), ([0], (1 : ℚ) / 2)] from rfl]
      rw [wsumLoop, if_neg (by simp), wsumLoop, if_neg (by simp), wsumLoop]
      norm_num
    rw [h1]
    dsimp only
    have h2 : truncQ (clampQ (3 / 2)) = 1 := by
      rw [show clampQ (3 / 2) = 3 / 2 by rw [clampQ, if_neg (by norm_num), if_neg (by norm_num)]]
      rw [truncQ, if_pos (by norm_num)]
      norm_num
    rw [h2]
  · have h3 : round ((1 / 2 : ℚ) * 3 + (1 / 2 : ℚ) * 0) = 2 := by
      rw [show ((1 / 2 : ℚ) * 3 + (1 / 2 : ℚ) * 0) = 3 / 2 by norm_num, round_eq]
      norm_num
    rw [h3]
    decide

/-- C6 (amended): for equal-length waveforms `a` and `b`,
`WeightedSummation` with weights `[0.5, 0.5]` produces at every index
`saturate (trunc (0.5·a[i] + 0.5·b[i]))`, the per-index weighted sum
accumulated in floating point, clamped, and narrowed with Go's
truncation toward zero (not round-to-nearest). -/
theorem weightedSummation_half_spec (a b : List Int) (n : Nat)
    (ha : a.length = n) (hb : b.length = n) :
    ∃ out, WeightedSummation [1 / 2, 1 / 2] [a, b] = Except.ok out ∧ out.length = n ∧
      ∀ i, i < n → out.getD i 0 =
        truncQ (clampQ ((1 / 2) * (a.getD i 0 : ℚ) + (1 / 2) * (b.getD i 0 : ℚ))) := by
  refine ⟨(List.range n).map
      (fun i => truncQ (clampQ ((1 / 2) * (a.getD i 0 : ℚ) + (1 / 2) * (b.getD i 0 : ℚ)))),
    ?_, by simp, ?_⟩
  · rw [WeightedSummation, if_neg (by simp), if_neg (by simp)]
    rw [show (([a, b] : List (List Int)).headD []).length = a.length from rfl, ha]
    apply collectIdx_ok
    intro i _
    dsimp only
    rw [show (([a, b] : List (List Int)).zip [(1 : ℚ) / 2, 1 / 2]) =
      [(a, (1 : ℚ) / 2), (b, (1 : ℚ) / 2)] from rfl]
    rw [wsumLoop, if_neg (by simp [ha]), wsumLoop, if_neg (by simp [hb]), wsumLoop]
    have harith : (0 : ℚ) + (a.getD i 0 : ℚ) * (1 / 2) + (b.getD i 0 : ℚ) * (1 / 2) =
        (1 / 2) * (a.getD i 0 : ℚ) + (1 / 2) * (b.getD i 0 : ℚ) := by ring
    rw [harith]
  · intro i hi
    rw [List.getD_eq_getElem _ 0 (by simpa using hi)]
    simp

/-- C6 witness: the amended theorem applied to `[1000, 3]` and
`[2000, 0]`. -/
theorem weightedSummation_half_witness :
    (([1000, 3] : List Int).length = 2 ∧ ([2000, 0] : List Int).length = 2) ∧
    (∃ out, WeightedSummation [1 / 2, 1 / 2] [[1000, 3], [2000, 0]] = Except.ok out ∧
      out.length = 2 ∧
      ∀ i, i < 2 → out.getD i 0 =
        truncQ (clampQ ((1 / 2) * (([1000, 3] : List Int).getD i 0 : ℚ) +
          (1 / 2) * (([2000, 0] : List Int).getD i 0 : ℚ)))) :=
  ⟨⟨by decide, by decide⟩,
    weightedSummation_half_spec [1000, 3] [2000, 0] 2 (by decide) (by decide)⟩

/-- C7 (amended): for equal-length waveforms `a` and `b`, `RMSMixing`
produces at every index
`saturate (⌊sqrt ((a[i]² + b[i]²) / 2)⌋)` — Go's conversion truncates the
square root toward zero rather than rounding to nearest; the spec's
10-sample example still holds since `⌊sqrt 2500000⌋ = 1581`. -/
theorem rmsMixing_pair_spec (a b : List Int) (n : Nat)
    (ha : a.length = n) (hb : b.length = n) :
    ∃ out, RMSMixing [a, b] = Except.ok out ∧ out.length = n ∧
      ∀ i, i < n → out.getD i 0 =
        clamp16 (Int.ofNat (Nat.sqrt
          ((a.getD i 0 * a.getD i 0 + b.getD i 0 * b.getD i 0).toNat / 2))) := by
  refine ⟨(List.range n).map
      (fun i => clamp16 (Int.ofNat (Nat.sqrt
        ((a.getD i 0 * a.getD i 0 + b.getD i 0 * b.getD i 0).toNat / 2)))),
    ?_, by simp, ?_⟩
  · rw [RMSMixing, if_neg (by simp)]
    rw [show (([a, b] : List (List Int)).headD []).length = a.length from rfl, ha]
    apply collectIdx_ok
    intro i _
    dsimp only
    rw [rmsLoop_ok n i [a, b] 0 (by
      intro w hw
      rcases List.mem_cons.mp hw with h | h
      · rw [h, ha]
      · rw [List.mem_singleton.mp h, hb])]
    have hfold : (([a, b] : List (List Int)).foldl
        (fun s w => s + w.getD i 0 * w.getD i 0) 0) =
        a.getD i 0 * a.getD i 0 + b.getD i 0 * b.getD i 0 := by
      simp
    rw [hfold, show ([a, b] : List (List Int)).length = 2 from rfl]
  · intro i hi
    rw [List.getD_eq_getElem _ 0 (by simpa using hi)]
    simp

/-- C7 witness: the amended theorem applied to `[1000]` and `[2000]`
(where the output sample is `⌊sqrt 2500000⌋ = 1581`). -/
theorem rmsMixing_pair_witness :
    (([1000] : List Int).length = 1 ∧ ([2000] : List Int).length = 1) ∧
    (∃ out, RMSMixing [[1000], [2000]] = Except.ok out ∧ out.length = 1 ∧
      ∀ i, i < 1 → out.getD i 0 =
        clamp16 (Int.ofNat (Nat.sqrt
          ((([1000] : List Int).getD i 0 * ([1000] : List Int).getD i 0 +
            ([2000] : List Int).getD i 0 * ([2000] : List Int).getD i 0).toNat / 2)))) :=
  ⟨⟨by decide, by decide⟩,
    rmsMixing_pair_spec [1000] [2000] 1 (by decide) (by decide)⟩

/-- C7 counterexample: `RMSMixing` truncates the square root toward zero
rather than rounding to nearest: on inputs `[1]` and `[2]` the root mean
square is `sqrt 2.5 ≈ 1.58`, the code yields `1`, while the claimed
`saturate (round (sqrt ((1·1 + 2·2) / 2)))` is `2`. -/
theorem rmsMixing_round_counterexample :
    RMSMixing [[1], [2]] = Except.ok [1] ∧
    clamp16 (round (Real.sqrt (((1 : ℝ) * 1 + 2 * 2) / 2))) = 2 ∧ (1 : Int) ≠ 2 := by
  refine ⟨?_, ?_, by decide⟩
  · have hstep : RMSMixing [[(1 : Int)], [2]] =
        Except.ok [clamp16 (Int.ofNat (Nat.sqrt 2))] := rfl
    rw [hstep, sqrt_eval 2 1 (by omega) (by omega)]
    rfl
  · have h5 : ((1 : ℝ) * 1 + 2 * 2) / 2 = 5 / 2 := by norm_num
    rw [h5]
    have hlo : (3 / 2 : ℝ) ≤ Real.sqrt (5 / 2) := by
      rw [Real.le_sqrt' (by norm_num)]
      norm_num
    have hhi : Real.sqrt (5 / 2) < 5 / 2 := by
      rw [Real.sqrt_lt' (by norm_num)]
      norm_num
    have hround : round (Real.sqrt (5 / 2)) = 2 := by
      rw [round_eq]
      apply Int.floor_eq_iff.mpr
      constructor
      · push_cast
        linarith
      · push_cast
        linarith
    rw [hround]
    decide

/-- C9 counterexample: on the empty waveform the code divides the zero
crossing count by `2 * (0 / sampleRate) = 0`, computing the `float64`
value `0/0 = NaN` (modelled as `none`) — it does not return 0. -/
theorem analyzeHighestFrequency_empty_counterexample :
    AnalyzeHighestFrequency [] 44100 = none ∧ (none : Option ℚ) ≠ some 0 := by
  refine ⟨rfl, ?_⟩
  intro h; cases h

/-- C9 (amended): `AnalyzeHighestFrequency` counts only strict sign
changes between consecutive samples (a zero sample crosses on neither
side) and returns `zeroCrossings / (2 * duration)` with
`duration = length / sampleRate`; a waveform of length 1 yields 0, but
the empty waveform yields the NaN of `0/0` (no numeric result) rather
than 0. -/
theorem analyzeHighestFrequency_spec (samples : List Int) (r : Nat) (hr : 0 < r) :
    (samples.length = 1 → AnalyzeHighestFrequency samples r = some 0) ∧
    (samples ≠ [] → AnalyzeHighestFrequency samples r =
      some ((countZeroCrossings samples : ℚ) /
        (2 * ((samples.length : ℚ) / (r : ℚ))))) ∧
    (samples = [] → AnalyzeHighestFrequency samples r = none) ∧
    (∀ x : Int, crossingStep 0 x = false ∧ crossingStep x 0 = false) := by
  have hmain : samples ≠ [] → AnalyzeHighestFrequency samples r =
      some ((countZeroCrossings samples : ℚ) /
        (2 * ((samples.length : ℚ) / (r : ℚ)))) := by
    intro h1
    rw [AnalyzeHighestFrequency]
    rw [if_neg (by simpa [List.length_eq_zero] using h1), if_neg (by omega)]
  refine ⟨?_, hmain, ?_, ?_⟩
  · intro h1
    rcases List.length_eq_one.mp h1 with ⟨x, rfl⟩
    rw [hmain (by simp)]
    rw [show countZeroCrossings [x] = 0 from rfl]
    norm_num
  · intro h1; subst h1; rfl
  · intro x
    constructor <;> simp [crossingStep]

/-- C9 witness: the amended theorem applied to the spec's example
`[1000, -1000, 1000, -1000]` at 44100 samples/second. -/
theorem analyzeHighestFrequency_spec_witness :
    0 < 44100 ∧
    ((([1000, -1000, 1000, -1000] : List Int).length = 1 →
      AnalyzeHighestFrequency [1000, -1000, 1000, -1000] 44100 = some 0) ∧
    (([1000, -1000, 1000, -1000] : List Int) ≠ [] →
      AnalyzeHighestFrequency [1000, -1000, 1000, -1000] 44100 =
        some ((countZeroCrossings [1000, -1000, 1000, -1000] : ℚ) /
          (2 * ((([1000, -1000, 1000, -1000] : List Int).length : ℚ) / ((44100 : Nat) : ℚ))))) ∧
    (([1000, -1000, 1000, -1000] : List Int) = [] →
      AnalyzeHighestFrequency [1000, -1000, 1000, -1000] 44100 = none) ∧
    (∀ x : Int, crossingStep 0 x = false ∧ crossingStep x 0 = false)) :=
  ⟨by decide, analyzeHighestFrequency_spec [1000, -1000, 1000, -1000] 44100 (by decide)⟩

/-- C2 counterexample: `NormalizeSamples [49] 1` returns `[0]`, not a
waveform of peak 1.  The binary64 scale is
`fl64 (1/49) = 5882252574524729 / 2^58`, and re-multiplying by 49 rounds
to `9007199254740991 / 2^53 = 0.9999999999999999`, which Go's conversion
truncates to `0`.  So the claimed postcondition
`PeakAmplitude(output) == targetPeak` fails for an in-range positive
target, and the per-sample formula `saturate(round(49·1/49)) = 1` fails
as well. -/
theorem normalizeSamples_round_counterexample :
    NormalizeSamples [49] 1 = [0] ∧
    FindPeakAmplitude [0] = 0 ∧ (0 : Int) ≠ 1 ∧
    clamp16 (round ((49 : ℚ) * 1 / 49)) = 1 := by
  refine ⟨?_, by decide, by decide, ?_⟩
  · have hpeak : FindPeakAmplitude [49] = 49 := by decide
    have hn : roundEven ((1 : ℚ) / 49 * 2 ^ (52 + 6)) = 5882252574524729 := by
      have hfloor : ⌊((1 : ℚ) / 49 * 2 ^ (52 + 6))⌋ = 5882252574524729 := by norm_num
      rw [roundEven, hfloor, if_pos (by norm_num)]
    have hscale : fl64 ((1 : ℚ) / 49) = 5882252574524729 / 2 ^ 58 := by
      have h := fl64_eval_neg ((1 : ℚ) / 49) 6 5882252574524729 (by norm_num)
        (by norm_num) (by norm_num) hn
      rw [h]
      norm_num
    have hn2 : roundEven ((49 : ℚ) * (5882252574524729 / 2 ^ 58) * 2 ^ (52 + 1)) =
        9007199254740991 := by
      have hfloor : ⌊((49 : ℚ) * (5882252574524729 / 2 ^ 58) * 2 ^ (52 + 1))⌋ =
          9007199254740991 := by norm_num
      rw [roundEven, hfloor, if_pos (by norm_num)]
    have hprod : fl64 ((49 : ℚ) * (5882252574524729 / 2 ^ 58)) =
        9007199254740991 / 2 ^ 53 := by
      have h := fl64_eval_neg ((49 : ℚ) * (5882252574524729 / 2 ^ 58)) 1
        9007199254740991 (by norm_num) (by norm_num) (by norm_num) hn2
      rw [h]
      norm_num
    simp only [NormalizeSamples, hpeak]
    rw [if_neg (by decide)]
    push_cast
    rw [hscale]
    simp only [List.map_cons, List.map_nil]
    push_cast
    rw [hprod]
    rw [if_neg (by norm_num), if_neg (by norm_num)]
    rw [truncQ, if_pos (by norm_num)]
    norm_num
  · have h3 : round ((49 : ℚ) * 1 / 49) = 1 := by
      rw [show ((49 : ℚ) * 1 / 49) = 1 by norm_num, round_eq]
      norm_num
    rw [h3]
    decide

/-- C2 (amended): for a waveform free of the extreme sample `-32768` and
a target peak `t` with `0 ≤ t ≤ 32767`: if the peak is 0 the input is
returned unchanged; otherwise each output sample is
`trunc (fl64 (input[i] · fl64 (t / peak)))` — the doubly rounded binary64
scaling truncated toward zero, not round-to-nearest — and the output
peak lands in `[t - 1, t]`: double rounding can lose one unit (so
`PeakAmplitude(output) == t` does not hold exactly), never more. -/
theorem normalizeSamples_spec (samples : List Int) (t : Int)
    (hrange : ∀ s ∈ samples, -32767 ≤ s ∧ s ≤ 32767)
    (ht0 : 0 ≤ t) (ht1 : t ≤ 32767) :
    (FindPeakAmplitude samples = 0 → NormalizeSamples samples t = samples) ∧
    (FindPeakAmplitude samples ≠ 0 →
      (∀ i, i < samples.length → (NormalizeSamples samples t).getD i 0 =
        scaleTrunc t (FindPeakAmplitude samples) (samples.getD i 0)) ∧
      t - 1 ≤ FindPeakAmplitude (NormalizeSamples samples t) ∧
      FindPeakAmplitude (NormalizeSamples samples t) ≤ t) := by
  constructor
  · intro h
    simp only [NormalizeSamples, h, if_pos]
  · intro hne
    have hpeq : FindPeakAmplitude samples = peakAbs samples :=
      findPeakAmplitude_eq_peakAbs samples hrange
    have hp0 : 0 ≤ FindPeakAmplitude samples := by
      rw [hpeq]; exact peakAbs_init_le samples 0
    have hppos : 0 < FindPeakAmplitude samples := lt_of_le_of_ne hp0 (Ne.symm hne)
    have hple : FindPeakAmplitude samples ≤ 32767 := by
      rw [hpeq]
      exact peakAbs_le_bound samples 0 32767 (by omega)
        (fun s hs => abs_le.mpr (hrange s hs))
    have hmem_le : ∀ s ∈ samples, |s| ≤ FindPeakAmplitude samples := by
      intro s hs; rw [hpeq]; exact peakAbs_le_of_mem samples 0 s hs
    have hpQ : (0 : ℚ) < ((FindPeakAmplitude samples : Int) : ℚ) := by
      exact_mod_cast hppos
    have htQ0 : (0 : ℚ) ≤ (t : ℚ) := by exact_mod_cast ht0
    have htQ1 : (t : ℚ) ≤ 32767 := by exact_mod_cast ht1
    have hclose : ∀ s ∈ samples,
        |fl64 ((s : ℚ) * fl64 ((t : ℚ) / (FindPeakAmplitude samples : ℚ))) -
          (s : ℚ) * ((t : ℚ) / (FindPeakAmplitude samples : ℚ))| ≤ 1 / 2 :=
      fun s hs => fl64_mul_close t (FindPeakAmplitude samples) s hppos ht0 ht1
        (hmem_le s hs)
    have hsa : ∀ s ∈ samples,
        |(s : ℚ) * ((t : ℚ) / (FindPeakAmplitude samples : ℚ))| ≤ (t : ℚ) := by
      intro s hs
      rw [abs_mul, abs_of_nonneg (div_nonneg htQ0 hpQ.le)]
      have h2 : |(s : ℚ)| ≤ ((FindPeakAmplitude samples : Int) : ℚ) := by
        rw [← Int.cast_abs]; exact_mod_cast hmem_le s hs
      calc |(s : ℚ)| * ((t : ℚ) / (FindPeakAmplitude samples : ℚ)) ≤
          ((FindPeakAmplitude samples : Int) : ℚ) *
            ((t : ℚ) / (FindPeakAmplitude samples : ℚ)) :=
            mul_le_mul_of_nonneg_right h2 (div_nonneg htQ0 hpQ.le)
        _ = (t : ℚ) := by field_simp
    have hv_le : ∀ s ∈ samples,
        |fl64 ((s : ℚ) * fl64 ((t : ℚ) / (FindPeakAmplitude samples : ℚ)))| ≤
          (t : ℚ) + 1 / 2 := by
      intro s hs
      have h1 := hclose s hs
      have h2 := hsa s hs
      have h4 := abs_add
        (fl64 ((s : ℚ) * fl64 ((t : ℚ) / (FindPeakAmplitude samples : ℚ))) -
          (s : ℚ) * ((t : ℚ) / (FindPeakAmplitude samples : ℚ)))
        ((s : ℚ) * ((t : ℚ) / (FindPeakAmplitude samples : ℚ)))
      rw [sub_add_cancel] at h4
      linarith
    have hunfold : NormalizeSamples samples t =
        samples.map (scaleTrunc t (FindPeakAmplitude samples)) := by
      simp only [NormalizeSamples]
      rw [if_neg hne]
      apply List.map_congr_left
      intro s hs
      dsimp only [scaleTrunc]
      exact clampBranch_eq_truncQ _ (by
        have := hv_le s hs
        linarith)
    have hout_le : ∀ y ∈ samples.map (scaleTrunc t (FindPeakAmplitude samples)),
        |y| ≤ t := by
      intro y hy
      rcases List.mem_map.mp hy with ⟨s, hs, rfl⟩
      have h1 := hv_le s hs
      exact truncQ_abs_lt _ t (by linarith)
    have hout_range : ∀ y ∈ samples.map (scaleTrunc t (FindPeakAmplitude samples)),
        -32767 ≤ y ∧ y ≤ 32767 := by
      intro y hy
      have h1 := abs_le.mp (hout_le y hy)
      omega
    refine ⟨?_, ?_, ?_⟩
    · intro i hi
      rw [hunfold, List.getD_eq_getElem _ 0 (by simpa using hi), List.getElem_map,
        List.getD_eq_getElem _ 0 hi]
    · rw [hunfold, findPeakAmplitude_eq_peakAbs _ hout_range]
      by_cases ht : t = 0
      · subst ht
        exact le_trans (by omega) (peakAbs_init_le _ 0)
      · rcases peakAbs_attained samples 0 with hcase | ⟨s0, hs0, hval⟩
        · exact absurd (hpeq.trans hcase) hne
        · have hpabs : |s0| = FindPeakAmplitude samples := by
            rw [hpeq]; exact hval.symm
          have heq : |(s0 : ℚ) * ((t : ℚ) / (FindPeakAmplitude samples : ℚ))| =
              (t : ℚ) := by
            rw [abs_mul, abs_of_nonneg (div_nonneg htQ0 hpQ.le), ← Int.cast_abs,
              hpabs]
            field_simp
          have hvlo : (t : ℚ) - 1 / 2 ≤
              |fl64 ((s0 : ℚ) * fl64 ((t : ℚ) / (FindPeakAmplitude samples : ℚ)))| := by
            have h1 := hclose s0 hs0
            have h2 := abs_sub_abs_le_abs_sub
              ((s0 : ℚ) * ((t : ℚ) / (FindPeakAmplitude samples : ℚ)))
              (fl64 ((s0 : ℚ) * fl64 ((t : ℚ) / (FindPeakAmplitude samples : ℚ))))
            rw [heq, abs_sub_comm] at h2
            linarith
          have htrunc : t - 1 ≤ |scaleTrunc t (FindPeakAmplitude samples) s0| := by
            apply truncQ_abs_ge _ (t - 1) (by omega)
            push_cast
            linarith
          have hmem_out : scaleTrunc t (FindPeakAmplitude samples) s0 ∈
              samples.map (scaleTrunc t (FindPeakAmplitude samples)) :=
            List.mem_map_of_mem _ hs0
          have hge := peakAbs_le_of_mem
            (samples.map (scaleTrunc t (FindPeakAmplitude samples))) 0 _ hmem_out
          exact le_trans htrunc hge
    · rw [hunfold, findPeakAmplitude_eq_peakAbs _ hout_range]
      exact peakAbs_le_bound _ 0 t ht0 hout_le

/-- C2 witness: the amended theorem applied to the repository's own test
case `[100, 200, -300]` with target peak 1000. -/
theorem normalizeSamples_spec_witness :
    (∀ s ∈ ([100, 200, -300] : List Int), -32767 ≤ s ∧ s ≤ 32767) ∧
    ((0 : Int) ≤ 1000 ∧ (1000 : Int) ≤ 32767) ∧
    ((FindPeakAmplitude [100, 200, -300] = 0 →
      NormalizeSamples [100, 200, -300] 1000 = [100, 200, -300]) ∧
    (FindPeakAmplitude [100, 200, -300] ≠ 0 →
      (∀ i, i < ([100, 200, -300] : List Int).length →
        (NormalizeSamples [100, 200, -300] 1000).getD i 0 =
          scaleTrunc 1000 (FindPeakAmplitude [100, 200, -300])
            (([100, 200, -300] : List Int).getD i 0)) ∧
      1000 - 1 ≤ FindPeakAmplitude (NormalizeSamples [100, 200, -300] 1000) ∧
      FindPeakAmplitude (NormalizeSamples [100, 200, -300] 1000) ≤ 1000)) :=
  ⟨by decide, ⟨by decide, by decide⟩,
    normalizeSamples_spec [100, 200, -300] 1000 (by decide) (by decide) (by decide)⟩

end Mixorama
